import Mathlib

/-!
# Verification of `search_pdf.py` (boolean-query PDF search)

Shallow embedding of the query tokenizer, recursive-descent parser,
AST evaluator, query loader and search orchestrator of
`src/search_pdf.py`, together with theorems settling the spec claims.

Python strings are modelled as `List Char`.  Case operations
(`str.lower`, `str.upper`, `str.isalpha`, `re.IGNORECASE`) are modelled
uniformly with Lean's ASCII `Char.toLower`/`Char.toUpper`/`Char.isAlpha`;
the case-insensitive regex search of a `re.escape`d literal is modelled
as a character-by-character case-folding scan.
-/

namespace SearchPdf

/-- Model of Python `str.lower` (character-wise). -/
def pyLower (s : List Char) : List Char := s.map Char.toLower

/-- Model of Python `str.upper` (character-wise). -/
def pyUpper (s : List Char) : List Char := s.map Char.toUpper

/-- Strip every leading and trailing character satisfying `p`
(model of Python `str.strip`). -/
def stripBy (p : Char → Bool) (s : List Char) : List Char :=
  ((s.dropWhile p).reverse.dropWhile p).reverse

/-- Model of Python `term.strip('"')`: remove all leading and trailing
double-quote characters. -/
def stripQuotes (s : List Char) : List Char := stripBy (fun c => c == '"') s

/-- Model of Python `str.strip()` (whitespace strip). -/
def pyStripWS (s : List Char) : List Char := stripBy Char.isWhitespace s

/-- Case-insensitive "pattern starts here" test: model of matching the
`re.escape`d literal `pat` at the beginning of `text` under
`re.IGNORECASE`. -/
def ciStarts : List Char → List Char → Bool
  | [], _ => true
  | _ :: _, [] => false
  | p :: ps, t :: ts => (p.toLower == t.toLower) && ciStarts ps ts

/-- Model of `re.compile(re.escape(pat), re.IGNORECASE).search(text)`:
scan every suffix of `text` for a case-insensitive occurrence of `pat`. -/
def ciSearch (pat : List Char) : List Char → Bool
  | [] => ciStarts pat []
  | c :: cs => ciStarts pat (c :: cs) || ciSearch pat cs

/-- Boolean expression tree of `search_pdf.py`: `TermNode` holds the
(quote-stripped) literal phrase, `OpNode` holds the operator string
(`'AND'` or `'OR'`) and the ordered children list. -/
inductive Tree where
  | term (t : List Char)
  | opn (op : List Char) (children : List Tree)

/-- Model of `TermNode(tok)`: the constructor strips double quotes from the token
and compiles the case-insensitive matcher for the result. -/
def mkTermNode (tok : List Char) : Tree := Tree.term (stripQuotes tok)

mutual

/-- Model of `node.evaluate(text)`: `TermNode` does the case-insensitive substring
search; `OpNode` conjoins its children when the operator is `'AND'`
and disjoins them otherwise (as in `OpNode.evaluate`). -/
def evalTree : Tree → List Char → Bool
  | Tree.term t, text => ciSearch t text
  | Tree.opn op cs, text =>
      if op = ['A', 'N', 'D'] then evalAll cs text else evalAny cs text

/-- Model of `all(child.evaluate(text) for child in children)`. -/
def evalAll : List Tree → List Char → Bool
  | [], _ => true
  | c :: cs, text => evalTree c text && evalAll cs text

/-- Model of `any(child.evaluate(text) for child in children)`. -/
def evalAny : List Tree → List Char → Bool
  | [], _ => false
  | c :: cs, text => evalTree c text || evalAny cs text

end

/-- Characters that continue a bare-word token: not whitespace and not a
parenthesis (the scan loop `while j < len(expr) and not expr[j].isspace()
and expr[j] not in '()'`). -/
def isWordChar (c : Char) : Bool := !c.isWhitespace && !(c == '(') && !(c == ')')

/-- The tokenizer's `AND` test at the current position:
`expr[i:i+3].upper() == 'AND' and (i+3 == len(expr) or not
expr[i+3].isalpha())`, expressed on the remaining suffix `l`
(`l.getD 3 ' '` returns the non-alphabetic `' '` when `i+3 == len`). -/
def andCond (l : List Char) : Bool :=
  ((l.take 3).map Char.toUpper == ['A', 'N', 'D']) && !((l.getD 3 ' ').isAlpha)

/-- The tokenizer's `OR` test at the current position. -/
def orCond (l : List Char) : Bool :=
  ((l.take 2).map Char.toUpper == ['O', 'R']) && !((l.getD 2 ' ').isAlpha)

/-- Fuelled tokenizer loop of `tokenize(expr)`; each recursive call
consumes at least one character, so `length + 1` fuel always suffices.
`Except.error` models the `ValueError('Unmatched quote in expression')`. -/
def tokenizeF : Nat → List Char → Except Unit (List (List Char))
  | 0, _ => Except.error ()
  | _ + 1, [] => Except.ok []
  | f + 1, c :: cs =>
    if c.isWhitespace then tokenizeF f cs
    else if c == '(' || c == ')' then
      (tokenizeF f cs).map (fun ts => [c] :: ts)
    else if andCond (c :: cs) then
      (tokenizeF f ((c :: cs).drop 3)).map (fun ts => ['A', 'N', 'D'] :: ts)
    else if orCond (c :: cs) then
      (tokenizeF f ((c :: cs).drop 2)).map (fun ts => ['O', 'R'] :: ts)
    else if c == '"' then
      match cs.findIdx? (fun x => x == '"') with
      | none => Except.error ()
      | some j => (tokenizeF f (cs.drop (j + 1))).map
          (fun ts => ('"' :: cs.take (j + 1)) :: ts)
    else
      (tokenizeF f ((c :: cs).dropWhile isWordChar)).map
        (fun ts => ((c :: cs).takeWhile isWordChar) :: ts)

/-- Model of `tokenize(expr)` of `search_pdf.py`. -/
def tokenize (l : List Char) : Except Unit (List (List Char)) :=
  tokenizeF (l.length + 1) l

/-- Position-instrumented version of the tokenizer loop: `search_pdf.py`
threads the character index `i`, so this records, for each emitted token,
the index at which its scan started.  `tokenizePosF_tokens` below shows it
produces the same token list as `tokenizeF`. -/
def tokenizePosF : Nat → Nat → List Char → Except Unit (List (Nat × List Char))
  | 0, _, _ => Except.error ()
  | _ + 1, _, [] => Except.ok []
  | f + 1, i, c :: cs =>
    if c.isWhitespace then tokenizePosF f (i + 1) cs
    else if c == '(' || c == ')' then
      (tokenizePosF f (i + 1) cs).map (fun ts => (i, [c]) :: ts)
    else if andCond (c :: cs) then
      (tokenizePosF f (i + 3) ((c :: cs).drop 3)).map
        (fun ts => (i, ['A', 'N', 'D']) :: ts)
    else if orCond (c :: cs) then
      (tokenizePosF f (i + 2) ((c :: cs).drop 2)).map
        (fun ts => (i, ['O', 'R']) :: ts)
    else if c == '"' then
      match cs.findIdx? (fun x => x == '"') with
      | none => Except.error ()
      | some j => (tokenizePosF f (i + j + 2) (cs.drop (j + 1))).map
          (fun ts => (i, '"' :: cs.take (j + 1)) :: ts)
    else
      (tokenizePosF f (i + ((c :: cs).takeWhile isWordChar).length)
          ((c :: cs).dropWhile isWordChar)).map
        (fun ts => (i, (c :: cs).takeWhile isWordChar) :: ts)

/-- Model of `tokenize(expr)` with the start position of every token. -/
def tokenizePos (l : List Char) : Except Unit (List (Nat × List Char)) :=
  tokenizePosF (l.length + 1) 0 l

mutual

/-- One step of `Parser.parse_term`; `fuel` bounds the recursion depth
(every nested call consumes at least one token, see `parse`). -/
def parseTermF : Nat → List (List Char) → Except Unit (Tree × List (List Char))
  | 0, _ => Except.error ()
  | _ + 1, [] => Except.error ()
  | f + 1, t :: ts =>
    if t = ['('] then
      match parseOrF f ts with
      | Except.error e => Except.error e
      | Except.ok (n, ts₁) =>
        match ts₁ with
        | [] => Except.error ()
        | r :: ts₂ => if r = [')'] then Except.ok (n, ts₂) else Except.error ()
    else Except.ok (mkTermNode t, ts)

/-- The `while ... == 'AND'` loop of `Parser.parse_and`: collects the
terms that follow the initial one. -/
def parseAndRestF : Nat → List (List Char) → Except Unit (List Tree × List (List Char))
  | 0, _ => Except.error ()
  | _ + 1, [] => Except.ok ([], [])
  | f + 1, t :: ts =>
    if t = ['A', 'N', 'D'] then
      match parseTermF f ts with
      | Except.error e => Except.error e
      | Except.ok (n, ts₁) =>
        match parseAndRestF f ts₁ with
        | Except.error e => Except.error e
        | Except.ok (ns, ts₂) => Except.ok (n :: ns, ts₂)
    else Except.ok ([], t :: ts)

/-- Model of `Parser.parse_and`: one term, then the `AND` loop; a single-element
node list is returned as that node, otherwise an `OpNode('AND', nodes)`. -/
def parseAndF : Nat → List (List Char) → Except Unit (Tree × List (List Char))
  | 0, _ => Except.error ()
  | f + 1, ts =>
    match parseTermF f ts with
    | Except.error e => Except.error e
    | Except.ok (n, ts₁) =>
      match parseAndRestF f ts₁ with
      | Except.error e => Except.error e
      | Except.ok (ns, ts₂) =>
        Except.ok (if ns.isEmpty then n else Tree.opn ['A', 'N', 'D'] (n :: ns), ts₂)

/-- The `while ... == 'OR'` loop of `Parser.parse_or`. -/
def parseOrRestF : Nat → List (List Char) → Except Unit (List Tree × List (List Char))
  | 0, _ => Except.error ()
  | _ + 1, [] => Except.ok ([], [])
  | f + 1, t :: ts =>
    if t = ['O', 'R'] then
      match parseAndF f ts with
      | Except.error e => Except.error e
      | Except.ok (n, ts₁) =>
        match parseOrRestF f ts₁ with
        | Except.error e => Except.error e
        | Except.ok (ns, ts₂) => Except.ok (n :: ns, ts₂)
    else Except.ok ([], t :: ts)

/-- Model of `Parser.parse_or`. -/
def parseOrF : Nat → List (List Char) → Except Unit (Tree × List (List Char))
  | 0, _ => Except.error ()
  | f + 1, ts =>
    match parseAndF f ts with
    | Except.error e => Except.error e
    | Except.ok (n, ts₁) =>
      match parseOrRestF f ts₁ with
      | Except.error e => Except.error e
      | Except.ok (ns, ts₂) =>
        Except.ok (if ns.isEmpty then n else Tree.opn ['O', 'R'] (n :: ns), ts₂)

end

/-- Model of `Parser(tokens).parse()`: run `parse_or` and fail on trailing tokens.
The fuel `4 * length + 4` over-approximates the number of parser calls:
every call either consumes a token or passes to a callee that does within
three steps, so the fuel is never exhausted on inputs the Python parser
accepts. -/
def parse (ts : List (List Char)) : Except Unit Tree :=
  match parseOrF (4 * ts.length + 4) ts with
  | Except.error e => Except.error e
  | Except.ok (t, []) => Except.ok t
  | Except.ok (_, _ :: _) => Except.error ()

/-- The body of the `try` in `build_trees`: tokenize then parse one query
(either step may raise `ValueError`). -/
def compile (q : List Char) : Except Unit Tree :=
  match tokenize q with
  | Except.error e => Except.error e
  | Except.ok ts => parse ts

/-- Model of `build_trees(queries)`: compile every query, dropping (and logging)
the ones that raise. -/
def build_trees (queries : List (List Char)) : List Tree :=
  queries.filterMap (fun q => (compile q).toOption)

/-- The matched-list computation of `search_in_pdf`:
`[queries[i] for i, node in enumerate(trees) if node.evaluate(text)]`.
(`queries.getD i []` models `queries[i]`; the index is always in range
because `build_trees` returns at most one tree per query.) -/
def matchedQueries (trees : List Tree) (queries : List (List Char))
    (text : List Char) : List (List Char) :=
  ((trees.enum).filter (fun p => evalTree p.2 text)).map
    (fun p => queries.getD p.1 [])

/-- Model of `search_in_pdf(path, trees, queries)`.  Text extraction is an external
collaborator (`PdfReader` + `extract_text`), modelled by the `extracted`
argument; the `except Exception: return (path, [])` clause is the
`Except.error` branch. -/
def search_in_pdf (path : List Char) (trees : List Tree)
    (queries : List (List Char)) (extracted : Except Unit (List Char)) :
    List Char × List (List Char) :=
  match extracted with
  | Except.error _ => (path, [])
  | Except.ok text => (path, matchedQueries trees queries text)

/-- The aggregation loop of `main`: one completed task per document, in
completion order `docs`; a result is recorded in the report dictionary
only if its matched list is non-empty. -/
def runReport (docs : List (List Char)) (ext : List Char → Except Unit (List Char))
    (trees : List Tree) (queries : List (List Char)) :
    List (List Char × List (List Char)) :=
  (docs.map (fun d => search_in_pdf d trees queries (ext d))).filter
    (fun r => !r.2.isEmpty)

/-- Look a document up in the final Match Report. -/
def lookupRep (d : List Char) (rep : List (List Char × List (List Char))) :
    Option (List (List Char)) :=
  (rep.find? (fun e => e.1 == d)).map (fun e => e.2)

/-- JSON values, modelling the result of the external `json.loads`. -/
inductive JValue where
  | jnull
  | jbool (b : Bool)
  | jnum (n : Int)
  | jstr (s : List Char)
  | jarr (xs : List JValue)
  | jobj (fields : List (List Char × JValue))

/-- Python truthiness of a JSON value (`if not queries`). -/
def jTruthy : JValue → Bool
  | JValue.jnull => false
  | JValue.jbool b => b
  | JValue.jnum n => !(n == 0)
  | JValue.jstr s => !s.isEmpty
  | JValue.jarr xs => !xs.isEmpty
  | JValue.jobj fs => !fs.isEmpty

/-- Model of `dict.get(key, default)` on the field list of a JSON object. -/
def jGet (fields : List (List Char × JValue)) (key : List Char)
    (dflt : JValue) : JValue :=
  match fields.find? (fun f => f.1 == key) with
  | some f => f.2
  | none => dflt

/-- Outcome of `load_queries`: a returned value, the `sys.exit(1)` after
`'No search terms found.'`, or an uncaught Python exception. -/
inductive LoadOutcome where
  | retList (qs : List (List Char))
  | retJson (v : JValue)
  | exited
  | crashed

/-- The `search_file` branch of `load_queries`.  `content` is
`search_file.read().strip()`; `jres` is the outcome of the external
`json.loads(content)` (`Except.error` = `json.JSONDecodeError`).
`data.get('queries', [])` only exists when the decoded value is an
object: on any other successfully decoded value the attribute access
raises an uncaught `AttributeError` (`crashed`). -/
def load_queries_file (jres : Except Unit JValue) (content : List Char) :
    LoadOutcome :=
  match jres with
  | Except.ok (JValue.jobj fields) =>
      let queries := jGet fields ['q', 'u', 'e', 'r', 'i', 'e', 's'] (JValue.jarr [])
      if jTruthy queries then LoadOutcome.retJson queries else LoadOutcome.exited
  | Except.ok _ => LoadOutcome.crashed
  | Except.error _ =>
      let lines := ((content.splitOn '\n').map pyStripWS).filter (fun l => !l.isEmpty)
      let queries :=
        if decide (lines.length > 1) && (content.headD ' ' == '(')
            && (content.getLastD ' ' == ')') then
          [List.intercalate [' '] lines]
        else lines
      if queries.isEmpty then LoadOutcome.exited else LoadOutcome.retList queries

/-- Exact substring containment, the model of Python `needle in hay`
for strings. -/
def containsSeq (needle : List Char) : List Char → Bool
  | [] => needle.isEmpty
  | c :: cs => List.isPrefixOf needle (c :: cs) || containsSeq needle cs

/-- The inline (`-s EXPR`) branch of `load_queries`: wrap the stripped
expression in double quotes when it mentions none of `' AND '`, `' OR '`,
`'('`, `')'` (checked on its uppercase form). -/
def load_queries_inline (search : List Char) : List (List Char) :=
  let txt := pyStripWS search
  let up := pyUpper txt
  if !containsSeq [' ', 'A', 'N', 'D', ' '] up
      && !containsSeq [' ', 'O', 'R', ' '] up
      && !containsSeq ['('] up && !containsSeq [')'] up then
    ['"' :: (txt ++ ['"'])]
  else [txt]

/-- A *bare term*: a token the tokenizer scans as one bare word in any
whitespace-delimited context.  It is non-empty, made of word characters,
does not open a quoted phrase, and does not begin with the tokenizer's
`AND`/`OR` operator pattern. -/
def splitsAsOp (a : List Char) : Bool :=
  (((a.take 3).map Char.toUpper == ['A', 'N', 'D']) && !((a.getD 3 ' ').isAlpha))
  || (((a.take 2).map Char.toUpper == ['O', 'R']) && !((a.getD 2 ' ').isAlpha))

/-- See `splitsAsOp`. -/
def isBareTerm (a : List Char) : Bool :=
  !a.isEmpty && a.all isWordChar && !splitsAsOp a && !(a.headD ' ' == '"')

/-! ## Helper lemmas -/

theorem length_dropWhile_le (p : Char → Bool) (l : List Char) :
    (l.dropWhile p).length ≤ l.length := by
  induction l with
  | nil => simp
  | cons c cs ih =>
    rw [List.dropWhile_cons]
    split
    · exact Nat.le_trans ih (Nat.le_succ _)
    · exact Nat.le_refl _

theorem ciStarts_iff (p t : List Char) :
    ciStarts p t = true ↔ pyLower p <+: pyLower t := by
  induction p generalizing t with
  | nil => simp [ciStarts, pyLower]
  | cons x xs ih =>
    cases t with
    | nil => simp [ciStarts, pyLower]
    | cons y ys =>
      simp [ciStarts, pyLower, List.cons_prefix_cons, ih, pyLower]

theorem ciSearch_iff (p t : List Char) :
    ciSearch p t = true ↔ pyLower p <:+: pyLower t := by
  induction t with
  | nil =>
    simp only [ciSearch, ciStarts_iff, pyLower, List.map_nil]
    constructor
    · intro h; exact h.isInfix
    · intro h; exact (List.infix_nil.mp h) ▸ List.nil_prefix
  | cons y ys ih =>
    simp only [ciSearch, Bool.or_eq_true, ciStarts_iff, ih, pyLower, List.map_cons]
    rw [List.infix_cons_iff]

theorem ciSearch_nil (t : List Char) : ciSearch [] t = true := by
  induction t with
  | nil => rfl
  | cons y ys ih => simp [ciSearch, ciStarts]

/-- The tokenizer result only depends on the fuel being sufficient. -/
theorem tokenizeF_congr :
    ∀ f₁ f₂ l, l.length < f₁ → l.length < f₂ → tokenizeF f₁ l = tokenizeF f₂ l := by
  intro f₁
  induction f₁ with
  | zero => intro f₂ l h1 _; exact absurd h1 (Nat.not_lt_zero _)
  | succ f ih =>
    intro f₂ l h1 h2
    cases f₂ with
    | zero => exact absurd h2 (Nat.not_lt_zero _)
    | succ f₂ =>
      cases l with
      | nil => rfl
      | cons c cs =>
        have hlen : cs.length < f := by simp at h1; omega
        have hlen2 : cs.length < f₂ := by simp at h2; omega
        simp only [tokenizeF]
        by_cases hws : c.isWhitespace = true
        · rw [if_pos hws, if_pos hws]
          exact ih f₂ cs hlen hlen2
        · rw [if_neg hws, if_neg hws]
          by_cases hp : (c == '(' || c == ')') = true
          · rw [if_pos hp, if_pos hp, ih f₂ cs hlen hlen2]
          · rw [if_neg hp, if_neg hp]
            by_cases ha : andCond (c :: cs) = true
            · rw [if_pos ha, if_pos ha,
                ih f₂ ((c :: cs).drop 3) (by simp [List.length_drop] at *; omega)
                (by simp [List.length_drop] at *; omega)]
            · rw [if_neg ha, if_neg ha]
              by_cases ho : orCond (c :: cs) = true
              · rw [if_pos ho, if_pos ho,
                  ih f₂ ((c :: cs).drop 2) (by simp [List.length_drop] at *; omega)
                  (by simp [List.length_drop] at *; omega)]
              · rw [if_neg ho, if_neg ho]
                by_cases hq : (c == '"') = true
                · rw [if_pos hq, if_pos hq]
                  cases hf : cs.findIdx? (fun x => x == '"') with
                  | none => rfl
                  | some j =>
                    simp only [hf]
                    rw [ih f₂ (cs.drop (j + 1)) (by simp [List.length_drop]; omega)
                      (by simp [List.length_drop]; omega)]
                · rw [if_neg hq, if_neg hq]
                  have hwc : isWordChar c = true := by
                    simp only [isWordChar, Bool.and_eq_true, Bool.not_eq_true']
                    simp only [Bool.or_eq_true, not_or, Bool.not_eq_true] at hp
                    exact ⟨⟨Bool.not_eq_true _ ▸ (by simpa using hws), hp.1⟩, hp.2⟩
                  have hdw : (c :: cs).dropWhile isWordChar = cs.dropWhile isWordChar := by
                    rw [List.dropWhile_cons, if_pos hwc]
                  rw [hdw]
                  rw [ih f₂ (cs.dropWhile isWordChar)
                    (Nat.lt_of_le_of_lt (length_dropWhile_le _ _) hlen)
                    (Nat.lt_of_le_of_lt (length_dropWhile_le _ _) hlen2)]

theorem takeWhile_append_all (p : Char → Bool) (a rest : List Char)
    (h : ∀ x ∈ a, p x = true) :
    (a ++ rest).takeWhile p = a ++ rest.takeWhile p := by
  induction a with
  | nil => simp
  | cons c cs ih =>
    rw [List.cons_append, List.takeWhile_cons, if_pos (h c (by simp)),
      ih (fun x hx => h x (by simp [hx])), List.cons_append]

theorem dropWhile_append_all (p : Char → Bool) (a rest : List Char)
    (h : ∀ x ∈ a, p x = true) :
    (a ++ rest).dropWhile p = rest.dropWhile p := by
  induction a with
  | nil => simp
  | cons c cs ih =>
    rw [List.cons_append, List.dropWhile_cons, if_pos (h c (by simp)),
      ih (fun x hx => h x (by simp [hx]))]

/-- A bare term followed by a space (or the end of the input) never makes
the tokenizer's `AND`/`OR` tests fire at its first character. -/
theorem bare_conds (a rest : List Char) (ha : a.all isWordChar = true)
    (hne : a ≠ []) (hs : splitsAsOp a = false)
    (hr : rest = [] ∨ ∃ r, rest = ' ' :: r) :
    andCond (a ++ rest) = false ∧ orCond (a ++ rest) = false := by
  simp only [splitsAsOp, Bool.or_eq_false_iff, Bool.and_eq_false_iff] at hs
  match a, hne with
  | [a0], _ =>
    rcases hr with rfl | ⟨r, rfl⟩
    · simp [andCond, orCond]
    · cases r with
      | nil => simp [andCond, orCond, Char.toUpper]
      | cons r0 r' => simp [andCond, orCond, Char.toUpper]
  | [a0, a1], _ =>
    rcases hr with rfl | ⟨r, rfl⟩
    · constructor
      · simp [andCond]
      · simp only [orCond, List.nil_append]
        simpa [splitsAsOp, orCond] using hs.2
    · constructor
      · simp [andCond, Char.toUpper]
      · simp only [orCond, List.cons_append, List.nil_append]
        simpa [splitsAsOp, orCond] using hs.2
  | a0 :: a1 :: a2 :: t, _ =>
    have htake3 : ((a0 :: a1 :: a2 :: t) ++ rest).take 3 = [a0, a1, a2] := by simp
    have htake2 : ((a0 :: a1 :: a2 :: t) ++ rest).take 2 = [a0, a1] := by simp
    have hgd3 : ((a0 :: a1 :: a2 :: t) ++ rest).getD 3 ' ' =
        (a0 :: a1 :: a2 :: t).getD 3 ' ' := by
      cases t with
      | nil => rcases hr with rfl | ⟨r, rfl⟩ <;> simp
      | cons t0 t' => simp
    have hgd2 : ((a0 :: a1 :: a2 :: t) ++ rest).getD 2 ' ' =
        (a0 :: a1 :: a2 :: t).getD 2 ' ' := by simp
    constructor
    · simp only [andCond, htake3, hgd3]
      have h1 := hs.1
      simp only [List.take, List.map_cons, List.map_nil] at h1 ⊢
      simp at h1 ⊢
      tauto
    · simp only [orCond, htake2, hgd2]
      have h2 := hs.2
      simp only [List.take, List.map_cons, List.map_nil] at h2 ⊢
      simp at h2 ⊢
      tauto

theorem tokenize_space (l : List Char) : tokenize (' ' :: l) = tokenize l := rfl

theorem tokenize_OR (l : List Char) :
    tokenize ('O' :: 'R' :: ' ' :: l) = (tokenize l).map (fun ts => ['O', 'R'] :: ts) := by
  have h : tokenize ('O' :: 'R' :: ' ' :: l) =
      (tokenizeF (l.length + 2) l).map (fun ts => ['O', 'R'] :: ts) := rfl
  rw [h, tokenizeF_congr (l.length + 2) (l.length + 1) l (by omega) (by omega)]
  rfl

theorem tokenize_AND (l : List Char) :
    tokenize ('A' :: 'N' :: 'D' :: ' ' :: l) =
      (tokenize l).map (fun ts => ['A', 'N', 'D'] :: ts) := by
  have h : tokenize ('A' :: 'N' :: 'D' :: ' ' :: l) =
      (tokenizeF (l.length + 3) l).map (fun ts => ['A', 'N', 'D'] :: ts) := rfl
  rw [h, tokenizeF_congr (l.length + 3) (l.length + 1) l (by omega) (by omega)]
  rfl

/-- Scanning a bare term followed by a space (or the end of input) emits
it as one token and continues after it. -/
theorem tokenize_bare (a rest : List Char) (hb : isBareTerm a = true)
    (hr : rest = [] ∨ ∃ r, rest = ' ' :: r) :
    tokenize (a ++ rest) = (tokenize rest).map (fun ts => a :: ts) := by
  simp only [isBareTerm, Bool.and_eq_true, Bool.not_eq_true'] at hb
  obtain ⟨⟨⟨hne', hall⟩, hsplit⟩, hq⟩ := hb
  have hne : a ≠ [] := by cases a <;> simp_all
  have hmem : ∀ x ∈ a, isWordChar x = true := List.all_eq_true.mp hall
  cases a with
  | nil => exact absurd rfl hne
  | cons a0 a' =>
    have hwc0 : isWordChar a0 = true := hmem a0 (by simp)
    have h0 : a0.isWhitespace = false ∧ (a0 == '(') = false ∧ (a0 == ')') = false := by
      simp only [isWordChar, Bool.and_eq_true, Bool.not_eq_true'] at hwc0
      exact ⟨hwc0.1.1, hwc0.1.2, hwc0.2⟩
    have h0q : (a0 == '"') = false := by simpa using hq
    have hconds := bare_conds (a0 :: a') rest hall hne hsplit hr
    simp only [List.cons_append] at hconds
    have htw : (a0 :: (a' ++ rest)).takeWhile isWordChar = a0 :: a' := by
      rw [show a0 :: (a' ++ rest) = (a0 :: a') ++ rest from rfl,
        takeWhile_append_all _ _ _ hmem]
      rcases hr with rfl | ⟨r, rfl⟩
      · simp
      · rw [List.takeWhile_cons, if_neg (by simp [isWordChar])]
        simp
    have hdw : (a0 :: (a' ++ rest)).dropWhile isWordChar = rest := by
      rw [show a0 :: (a' ++ rest) = (a0 :: a') ++ rest from rfl,
        dropWhile_append_all _ _ _ hmem]
      rcases hr with rfl | ⟨r, rfl⟩
      · simp
      · rw [List.dropWhile_cons, if_neg (by simp [isWordChar])]
    simp only [tokenize, List.cons_append, List.length_cons, tokenizeF, List.append_eq]
    rw [if_neg (by simp [h0.1]), if_neg (by simp [h0.2.1, h0.2.2]),
      if_neg (by simp [hconds.1]), if_neg (by simp [hconds.2]),
      if_neg (by simp [h0q]), htw, hdw,
      tokenizeF_congr ((a' ++ rest).length + 1) (rest.length + 1) rest
        (by simp; omega) (by omega)]

/-- Tokenizing `a OR b AND c` for bare terms `a`, `b`, `c`. -/
theorem tokenize_or_and (a b c : List Char) (ha : isBareTerm a = true)
    (hb : isBareTerm b = true) (hc : isBareTerm c = true) :
    tokenize (a ++ ' ' :: 'O' :: 'R' :: ' ' :: (b ++ ' ' :: 'A' :: 'N' :: 'D' :: ' ' :: c)) =
      Except.ok [a, ['O', 'R'], b, ['A', 'N', 'D'], c] := by
  have hcnil : tokenize c = Except.ok [c] := by
    have h := tokenize_bare c [] hc (Or.inl rfl)
    simpa using h
  rw [tokenize_bare a _ ha (Or.inr ⟨_, rfl⟩), tokenize_space, tokenize_OR,
    tokenize_bare b _ hb (Or.inr ⟨_, rfl⟩), tokenize_space, tokenize_AND, hcnil]
  rfl

/-- Tokenizing `a AND b AND c` for bare terms `a`, `b`, `c`. -/
theorem tokenize_and_and (a b c : List Char) (ha : isBareTerm a = true)
    (hb : isBareTerm b = true) (hc : isBareTerm c = true) :
    tokenize (a ++ ' ' :: 'A' :: 'N' :: 'D' :: ' ' :: (b ++ ' ' :: 'A' :: 'N' :: 'D' :: ' ' :: c)) =
      Except.ok [a, ['A', 'N', 'D'], b, ['A', 'N', 'D'], c] := by
  have hcnil : tokenize c = Except.ok [c] := by
    have h := tokenize_bare c [] hc (Or.inl rfl)
    simpa using h
  rw [tokenize_bare a _ ha (Or.inr ⟨_, rfl⟩), tokenize_space, tokenize_AND,
    tokenize_bare b _ hb (Or.inr ⟨_, rfl⟩), tokenize_space, tokenize_AND, hcnil]
  rfl

theorem parseTermF_term (f : Nat) (t : List Char) (ts : List (List Char))
    (h : t ≠ ['(']) :
    parseTermF (f + 1) (t :: ts) = Except.ok (mkTermNode t, ts) := by
  simp only [parseTermF]
  rw [if_neg h]

theorem parseAndRestF_nil (f : Nat) : parseAndRestF (f + 1) [] = Except.ok ([], []) := rfl

theorem parseAndRestF_stop (f : Nat) (t : List Char) (ts : List (List Char))
    (h : t ≠ ['A', 'N', 'D']) :
    parseAndRestF (f + 1) (t :: ts) = Except.ok ([], t :: ts) := by
  simp only [parseAndRestF]
  rw [if_neg h]

theorem parseOrRestF_nil (f : Nat) : parseOrRestF (f + 1) [] = Except.ok ([], []) := rfl

/-- Running `parse` on the token shape `a OR b AND c`: `AND` binds tighter. -/
theorem parseOrF_shape_or_and (f : Nat) (a b c : List Char)
    (ha : a ≠ ['(']) (hb : b ≠ ['(']) (hc : c ≠ ['(']) :
    parseOrF (f + 6) [a, ['O', 'R'], b, ['A', 'N', 'D'], c] =
      Except.ok (Tree.opn ['O', 'R'] [mkTermNode a,
        Tree.opn ['A', 'N', 'D'] [mkTermNode b, mkTermNode c]], []) := by
  simp [parseOrF, parseAndF, parseTermF, parseAndRestF, parseOrRestF, ha, hb, hc]

/-- Running `parse` on the token shape `a AND b AND c`: one flat three-child node. -/
theorem parseOrF_shape_and_and (f : Nat) (a b c : List Char)
    (ha : a ≠ ['(']) (hb : b ≠ ['(']) (hc : c ≠ ['(']) :
    parseOrF (f + 6) [a, ['A', 'N', 'D'], b, ['A', 'N', 'D'], c] =
      Except.ok (Tree.opn ['A', 'N', 'D'] [mkTermNode a, mkTermNode b, mkTermNode c], []) := by
  simp [parseOrF, parseAndF, parseTermF, parseAndRestF, parseOrRestF, ha, hb, hc]

theorem bareTerm_ne_lparen (a : List Char) (h : isBareTerm a = true) : a ≠ ['('] := by
  intro heq
  rw [heq] at h
  exact absurd h (by decide)

theorem parse_shape_or_and (a b c : List Char)
    (ha : a ≠ ['(']) (hb : b ≠ ['(']) (hc : c ≠ ['(']) :
    parse [a, ['O', 'R'], b, ['A', 'N', 'D'], c] =
      Except.ok (Tree.opn ['O', 'R'] [mkTermNode a,
        Tree.opn ['A', 'N', 'D'] [mkTermNode b, mkTermNode c]]) := by
  have h := parseOrF_shape_or_and 18 a b c ha hb hc
  norm_num at h
  simp only [parse, List.length_cons, List.length_nil]
  norm_num
  rw [h]

theorem parse_shape_and_and (a b c : List Char)
    (ha : a ≠ ['(']) (hb : b ≠ ['(']) (hc : c ≠ ['(']) :
    parse [a, ['A', 'N', 'D'], b, ['A', 'N', 'D'], c] =
      Except.ok (Tree.opn ['A', 'N', 'D'] [mkTermNode a, mkTermNode b, mkTermNode c]) := by
  have h := parseOrF_shape_and_and 18 a b c ha hb hc
  norm_num at h
  simp only [parse, List.length_cons, List.length_nil]
  norm_num
  rw [h]

/-! ## Claims C3 and C7: precedence and flattening -/

/-- Claim C3. For all bare terms `a`, `b`, `c` and every text `s`, the tree
parsed from the expression `a OR b AND c` evaluates on `s` to
`(a matches s) OR (b matches s AND c matches s)`: `AND` binds tighter
than `OR`. -/
theorem claim_C3 (a b c s : List Char) (ha : isBareTerm a = true)
    (hb : isBareTerm b = true) (hc : isBareTerm c = true) :
    (compile (a ++ ' ' :: 'O' :: 'R' :: ' ' :: (b ++ ' ' :: 'A' :: 'N' :: 'D' :: ' ' :: c))).map
        (fun t => evalTree t s) =
      Except.ok (evalTree (mkTermNode a) s ||
        (evalTree (mkTermNode b) s && evalTree (mkTermNode c) s)) := by
  have htok := tokenize_or_and a b c ha hb hc
  simp only [compile, htok]
  rw [parse_shape_or_and a b c (bareTerm_ne_lparen a ha) (bareTerm_ne_lparen b hb)
    (bareTerm_ne_lparen c hc)]
  simp [evalTree, evalAny, evalAll, Except.map]

theorem claim_C3_witness :
    isBareTerm ['x'] = true ∧ isBareTerm ['y'] = true ∧ isBareTerm ['z'] = true ∧
    (compile (['x'] ++ ' ' :: 'O' :: 'R' :: ' ' ::
        (['y'] ++ ' ' :: 'A' :: 'N' :: 'D' :: ' ' :: ['z']))).map
        (fun t => evalTree t ['x']) =
      Except.ok (evalTree (mkTermNode ['x']) ['x'] ||
        (evalTree (mkTermNode ['y']) ['x'] && evalTree (mkTermNode ['z']) ['x'])) :=
  ⟨by decide, by decide, by decide,
    claim_C3 ['x'] ['y'] ['z'] ['x'] (by decide) (by decide) (by decide)⟩

/-- Claim C7. The token sequence of `a AND b AND c` (bare terms `a`, `b`,
`c`) parses to exactly one `OpNode` with operator `AND` and the three
`TermNode`s as children in order: no nested binary nodes and no redundant
single-child wrapper. -/
theorem claim_C7 (a b c : List Char) (ha : isBareTerm a = true)
    (hb : isBareTerm b = true) (hc : isBareTerm c = true) :
    compile (a ++ ' ' :: 'A' :: 'N' :: 'D' :: ' ' :: (b ++ ' ' :: 'A' :: 'N' :: 'D' :: ' ' :: c)) =
      Except.ok (Tree.opn ['A', 'N', 'D'] [mkTermNode a, mkTermNode b, mkTermNode c]) := by
  have htok := tokenize_and_and a b c ha hb hc
  simp only [compile, htok]
  exact parse_shape_and_and a b c (bareTerm_ne_lparen a ha) (bareTerm_ne_lparen b hb)
    (bareTerm_ne_lparen c hc)

theorem claim_C7_witness :
    isBareTerm ['x'] = true ∧ isBareTerm ['y'] = true ∧ isBareTerm ['z'] = true ∧
    compile (['x'] ++ ' ' :: 'A' :: 'N' :: 'D' :: ' ' ::
        (['y'] ++ ' ' :: 'A' :: 'N' :: 'D' :: ' ' :: ['z'])) =
      Except.ok (Tree.opn ['A', 'N', 'D']
        [mkTermNode ['x'], mkTermNode ['y'], mkTermNode ['z']]) :=
  ⟨by decide, by decide, by decide,
    claim_C7 ['x'] ['y'] ['z'] (by decide) (by decide) (by decide)⟩

/-! ## Claim C2: TermNode semantics -/

/-- Claim C2, counterexample. The claim "`TermNode(t).evaluate(s)` is true
iff `s.lower()` contains `t.lower()`" fails for terms carrying surrounding
double quotes, which the `TermNode` constructor strips: `TermNode('"a"')`
matches the text `a` although `"a"` is not a substring of it. -/
theorem claim_C2_cx :
    evalTree (mkTermNode ['"', 'a', '"']) ['a'] = true ∧
    ¬(pyLower ['"', 'a', '"'] <:+: pyLower ['a']) := by
  refine ⟨by decide, fun h => ?_⟩
  have hlen := h.length_le
  simp [pyLower] at hlen

/-- Claim C2, amended. For every term string `t` and text `s`,
`TermNode(t).evaluate(s)` is true iff `s.lower()` contains
`t.strip('"').lower()` as a contiguous substring. -/
theorem claim_C2_amended (t s : List Char) :
    evalTree (mkTermNode t) s = true ↔ pyLower (stripQuotes t) <:+: pyLower s := by
  simp only [mkTermNode, evalTree]
  exact ciSearch_iff _ _

/-! ## Claim C10: the empty quoted phrase matches everything -/

/-- Claim C10. The query `""` (a pair of double quotes) compiles to a
`TermNode` whose stripped term is the empty string, and that node
evaluates to true on every text, including the empty text. -/
theorem claim_C10 :
    build_trees [['"', '"']] = [Tree.term []] ∧
    ∀ text, evalTree (Tree.term []) text = true := by
  refine ⟨rfl, fun text => ?_⟩
  simp only [evalTree]
  exact ciSearch_nil text

/-! ## Claim C1: query/tree index misalignment -/

/-- Claim C1, code bug. In the batch `["AND foo", "bar"]` the first query
fails to compile and is dropped by `build_trees`, so in `search_in_pdf`
the comprehension `[queries[i] for i, node in enumerate(trees) ...]`
indexes `queries` by the position in the *filtered* tree list: on a text
matched by `bar` it reports the dropped string `"AND foo"` instead of
`"bar"`. -/
theorem claim_C1_bug :
    search_in_pdf ['d'] (build_trees [['A', 'N', 'D', ' ', 'f', 'o', 'o'], ['b', 'a', 'r']])
        [['A', 'N', 'D', ' ', 'f', 'o', 'o'], ['b', 'a', 'r']]
        (Except.ok ['b', 'a', 'r']) =
      (['d'], [['A', 'N', 'D', ' ', 'f', 'o', 'o']]) ∧
    (['A', 'N', 'D', ' ', 'f', 'o', 'o'] : List Char) ≠ ['b', 'a', 'r'] := by
  constructor
  · decide
  · decide

/-! ## Claim C5: load_queries on non-object JSON input -/

/-- Claim C5, code bug. When the search file's content is `[]` — valid
JSON that decodes to a list, not an object — `load_queries` reaches
`data.get('queries', [])` on a list and raises an uncaught
`AttributeError` instead of exiting with a reported error. -/
theorem claim_C5_bug :
    load_queries_file (Except.ok (JValue.jarr [])) ['[', ']'] = LoadOutcome.crashed := rfl

/-! ## Claims C4 and C6: the orchestrator -/

theorem search_in_pdf_fst (p : List Char) (trees : List Tree)
    (queries : List (List Char)) (e : Except Unit (List Char)) :
    (search_in_pdf p trees queries e).1 = p := by
  cases e <;> rfl

theorem runReport_cons (x : List Char) (xs : List (List Char))
    (ext : List Char → Except Unit (List Char)) (trees : List Tree)
    (queries : List (List Char)) :
    runReport (x :: xs) ext trees queries =
      if (search_in_pdf x trees queries (ext x)).2 = [] then
        runReport xs ext trees queries
      else search_in_pdf x trees queries (ext x) :: runReport xs ext trees queries := by
  simp only [runReport, List.map_cons, List.filter_cons]
  by_cases hm : (search_in_pdf x trees queries (ext x)).2 = []
  · rw [if_pos hm, if_neg (by simp [hm])]
  · rw [if_neg hm, if_pos (by simp [hm])]

theorem lookupRep_cons (d : List Char) (r : List Char × List (List Char))
    (rep : List (List Char × List (List Char))) :
    lookupRep d (r :: rep) = if r.1 = d then some r.2 else lookupRep d rep := by
  by_cases h : r.1 = d
  · rw [if_pos h]
    simp only [lookupRep]
    rw [List.find?_cons_of_pos _ (by simp [h])]
    rfl
  · rw [if_neg h]
    simp only [lookupRep]
    rw [List.find?_cons_of_neg _ (by simp [h])]

/-- Claim C4. A document whose text extraction fails yields an empty matched
list, never appears in the final Match Report, and its failure does not
affect any other document of the batch (the report equals the one for the
batch without it). -/
theorem claim_C4 (docs : List (List Char)) (ext : List Char → Except Unit (List Char))
    (trees : List Tree) (queries : List (List Char)) (d : List Char)
    (hd : ext d = Except.error ()) :
    (search_in_pdf d trees queries (ext d)).2 = [] ∧
    (∀ e ∈ runReport docs ext trees queries, e.1 ≠ d) ∧
    runReport docs ext trees queries =
      runReport (docs.filter (fun x => !(x == d))) ext trees queries := by
  have hsd : search_in_pdf d trees queries (ext d) = (d, []) := by rw [hd]; rfl
  refine ⟨by rw [hsd], ?_, ?_⟩
  · intro e he
    simp only [runReport, List.mem_filter, List.mem_map] at he
    obtain ⟨⟨x, hx, rfl⟩, hne⟩ := he
    rw [search_in_pdf_fst]
    intro hkey
    subst hkey
    rw [hsd] at hne
    simp at hne
  · induction docs with
    | nil => rfl
    | cons x xs ih =>
      rw [List.filter_cons]
      by_cases hxd : x = d
      · subst hxd
        rw [runReport_cons, if_pos (by rw [hsd]), if_neg (by simp)]
        exact ih
      · rw [if_pos (by simp [hxd]), runReport_cons, runReport_cons, ih]

theorem claim_C4_witness :
    (fun x => if x == ['a'] then Except.error () else Except.ok ['b', 'q']) ['a']
        = Except.error () ∧
    (search_in_pdf ['a'] (build_trees [['b']]) [['b']]
      ((fun x => if x == ['a'] then Except.error () else Except.ok ['b', 'q']) ['a'])).2 = [] ∧
    runReport [['a'], ['b']]
        (fun x => if x == ['a'] then Except.error () else Except.ok ['b', 'q'])
        (build_trees [['b']]) [['b']] =
      runReport ([['a'], ['b']].filter (fun x => !(x == ['a'])))
        (fun x => if x == ['a'] then Except.error () else Except.ok ['b', 'q'])
        (build_trees [['b']]) [['b']] :=
  ⟨rfl,
    (claim_C4 [['a'], ['b']]
      (fun x => if x == ['a'] then Except.error () else Except.ok ['b', 'q'])
      (build_trees [['b']]) [['b']] ['a'] rfl).1,
    (claim_C4 [['a'], ['b']]
      (fun x => if x == ['a'] then Except.error () else Except.ok ['b', 'q'])
      (build_trees [['b']]) [['b']] ['a'] rfl).2.2⟩

/-- The Match Report entry of a document only depends on the document
itself, not on the completion order of the batch. -/
theorem lookup_runReport (docs : List (List Char))
    (ext : List Char → Except Unit (List Char)) (trees : List Tree)
    (queries : List (List Char)) (d : List Char) :
    lookupRep d (runReport docs ext trees queries) =
      if d ∈ docs ∧ (search_in_pdf d trees queries (ext d)).2 ≠ [] then
        some (search_in_pdf d trees queries (ext d)).2
      else none := by
  induction docs with
  | nil => simp [runReport, lookupRep]
  | cons x xs ih =>
    rw [runReport_cons]
    by_cases hm : (search_in_pdf x trees queries (ext x)).2 = []
    · rw [if_pos hm, ih]
      by_cases hxd : x = d
      · subst hxd
        simp [hm]
      · by_cases hdx : d ∈ xs
        · simp [hdx, hxd, Ne.symm hxd]
        · simp [hdx, hxd, Ne.symm hxd]
    · rw [if_neg hm, lookupRep_cons, search_in_pdf_fst]
      by_cases hxd : x = d
      · subst hxd
        rw [if_pos rfl, if_pos ⟨List.mem_cons_self _ _, hm⟩]
      · rw [if_neg hxd, ih]
        by_cases hdx : d ∈ xs
        · simp [hdx, Ne.symm hxd]
        · simp [hdx, Ne.symm hxd]

/-- Claim C6. For a fixed document set, query set and extraction outcomes,
any two completion orders of the per-document tasks (in particular 1
worker vs N workers) produce a Match Report with identical content: the
same documents, each mapped to the same matched-query list. -/
theorem claim_C6 (docs docs' : List (List Char))
    (ext : List Char → Except Unit (List Char)) (trees : List Tree)
    (queries : List (List Char)) (hperm : docs.Perm docs') :
    ((runReport docs ext trees queries).map Prod.fst).Perm
      ((runReport docs' ext trees queries).map Prod.fst) ∧
    ∀ d, lookupRep d (runReport docs ext trees queries) =
      lookupRep d (runReport docs' ext trees queries) := by
  constructor
  · exact ((hperm.map _).filter _).map _
  · intro d
    rw [lookup_runReport, lookup_runReport]
    by_cases hmem : d ∈ docs
    · have hmem' : d ∈ docs' := hperm.mem_iff.mp hmem
      simp only [hmem, hmem', true_and]
    · have hmem' : d ∉ docs' := fun h => hmem (hperm.mem_iff.mpr h)
      simp [hmem, hmem']

theorem claim_C6_witness :
    ((runReport [['a'], ['b']] (fun x => Except.ok x) (build_trees [['b']]) [['b']]).map
        Prod.fst).Perm
      ((runReport [['b'], ['a']] (fun x => Except.ok x) (build_trees [['b']]) [['b']]).map
        Prod.fst) ∧
    lookupRep ['b'] (runReport [['a'], ['b']] (fun x => Except.ok x)
        (build_trees [['b']]) [['b']]) =
      lookupRep ['b'] (runReport [['b'], ['a']] (fun x => Except.ok x)
        (build_trees [['b']]) [['b']]) :=
  ⟨(claim_C6 [['a'], ['b']] [['b'], ['a']] _ _ [['b']] (List.Perm.swap ['b'] ['a'] [])).1,
    (claim_C6 [['a'], ['b']] [['b'], ['a']] _ _ [['b']] (List.Perm.swap ['b'] ['a'] [])).2 ['b']⟩

/-! ## Claim C8: inline phrase wrapping -/

theorem findIdx_quote : ∀ (txt : List Char) (i : Nat), '"' ∉ txt →
    List.findIdx? (fun x => x == '"') (txt ++ ['"']) i = some (txt.length + i) := by
  intro txt
  induction txt with
  | nil => intro i h; simp [List.findIdx?_cons]
  | cons t ts ih =>
    intro i h
    have ht : t ≠ '"' := fun he => h (by simp [he])
    rw [List.cons_append, List.findIdx?_cons, if_neg (by simp [ht]),
      ih (i + 1) (fun hm => h (by simp [hm]))]
    simp only [List.length_cons, Option.some.injEq]
    omega

theorem dropWhile_all_neg (p : Char → Bool) (l : List Char)
    (h : ∀ x ∈ l, p x = false) : l.dropWhile p = l := by
  cases l with
  | nil => rfl
  | cons x xs => exact List.dropWhile_cons_of_neg (by simp [h x (by simp)])

/-- Stripping the quotes added by the inline wrap recovers the original
text when it contains no double quote itself. -/
theorem stripQuotes_wrap (txt : List Char) (h : '"' ∉ txt) :
    stripQuotes ('"' :: (txt ++ ['"'])) = txt := by
  cases txt with
  | nil => rfl
  | cons t ts =>
    have ht : t ≠ '"' := fun he => h (by simp [he])
    have hts : '"' ∉ ts := fun hm => h (by simp [hm])
    unfold stripQuotes stripBy
    have e1 : List.dropWhile (fun c => c == '"') ('"' :: ((t :: ts) ++ ['"'])) =
        (t :: ts) ++ ['"'] := by
      rw [List.dropWhile_cons_of_pos (by decide), List.cons_append,
        List.dropWhile_cons_of_neg (by simp [ht])]
    rw [e1, List.reverse_append]
    have e2 : List.dropWhile (fun c => c == '"')
        ((['"'] : List Char).reverse ++ (t :: ts).reverse) = (t :: ts).reverse := by
      rw [show (['"'] : List Char).reverse = ['"'] from rfl, List.singleton_append,
        List.dropWhile_cons_of_pos (by decide)]
      refine dropWhile_all_neg _ ((t :: ts).reverse) (fun x hx => ?_)
      rw [List.mem_reverse] at hx
      rcases List.mem_cons.mp hx with rfl | hx'
      · simp [ht]
      · simp only [beq_eq_false_iff_ne, ne_eq]
        intro he
        exact hts (he ▸ hx')
    rw [e2, List.reverse_reverse]

theorem tokenizeF_nil (f : Nat) : tokenizeF (f + 1) [] = Except.ok [] := rfl

/-- Tokenizing a wrapped phrase yields exactly one (quoted) token. -/
theorem tokenize_wrapped (txt : List Char) (h : '"' ∉ txt) :
    tokenize ('"' :: (txt ++ ['"'])) = Except.ok [('"' :: (txt ++ ['"']))] := by
  simp only [tokenize, List.length_cons, tokenizeF]
  rw [if_neg (by decide), if_neg (by decide),
    if_neg (by simp [andCond, Char.toUpper]), if_neg (by simp [orCond, Char.toUpper]),
    if_pos (by decide), findIdx_quote txt 0 h]
  dsimp only
  simp only [Nat.add_zero]
  rw [List.take_of_length_le (by simp), List.drop_eq_nil_of_le (by simp),
    tokenizeF_nil (txt ++ ['"']).length]
  rfl

theorem parseOrF_single (f : Nat) (t : List Char) (h : t ≠ ['(']) :
    parseOrF (f + 3) [t] = Except.ok (mkTermNode t, []) := by
  simp [parseOrF, parseAndF, parseTermF, parseAndRestF, parseOrRestF, h]

theorem parse_single (t : List Char) (h : t ≠ ['(']) :
    parse [t] = Except.ok (mkTermNode t) := by
  have hp := parseOrF_single 5 t h
  norm_num at hp
  simp only [parse, List.length_cons, List.length_nil]
  norm_num
  rw [hp]

/-- Claim C8, counterexample. The inline expression `a "b` contains no
boolean operator and no parenthesis, so `load_queries` wraps it, but the
embedded quote makes the wrapped query `"a "b"` fail to parse: it is
dropped, and no compiled query matches the texts containing `a "b`. -/
theorem claim_C8_cx :
    load_queries_inline ['a', ' ', '"', 'b'] = [['"', 'a', ' ', '"', 'b', '"']] ∧
    build_trees (load_queries_inline ['a', ' ', '"', 'b']) = [] :=
  ⟨rfl, rfl⟩

/-- Claim C8, amended. For every inline expression whose stripped text
contains none of the operator substrings `' AND '`/`' OR '`, no
parenthesis **and no double quote**, `load_queries` wraps it as one
quoted-phrase query, that query compiles to the `TermNode` of the whole
stripped text, and it matches exactly the texts containing that text as a
contiguous case-insensitive substring. -/
theorem claim_C8_amended (search : List Char)
    (h1 : containsSeq [' ', 'A', 'N', 'D', ' '] (pyUpper (pyStripWS search)) = false)
    (h2 : containsSeq [' ', 'O', 'R', ' '] (pyUpper (pyStripWS search)) = false)
    (h3 : containsSeq ['('] (pyUpper (pyStripWS search)) = false)
    (h4 : containsSeq [')'] (pyUpper (pyStripWS search)) = false)
    (h5 : '"' ∉ pyStripWS search) :
    load_queries_inline search = ['"' :: (pyStripWS search ++ ['"'])] ∧
    build_trees (load_queries_inline search) = [Tree.term (pyStripWS search)] ∧
    ∀ text, evalTree (Tree.term (pyStripWS search)) text = true ↔
      pyLower (pyStripWS search) <:+: pyLower text := by
  have hload : load_queries_inline search = ['"' :: (pyStripWS search ++ ['"'])] := by
    simp [load_queries_inline, h1, h2, h3, h4]
  have hcomp : compile ('"' :: (pyStripWS search ++ ['"'])) =
      Except.ok (Tree.term (pyStripWS search)) := by
    simp only [compile, tokenize_wrapped (pyStripWS search) h5]
    rw [parse_single _ (by simp), mkTermNode, stripQuotes_wrap _ h5]
  refine ⟨hload, ?_, fun text => ?_⟩
  · rw [hload]
    simp [build_trees, List.filterMap_cons, hcomp, Except.toOption]
  · simp only [evalTree]
    exact ciSearch_iff _ _

theorem claim_C8_witness :
    containsSeq [' ', 'A', 'N', 'D', ' ']
        (pyUpper (pyStripWS ['n', 'e', 'u', 'r', 'a', 'l', ' ', 'c', 'o', 'd', 'e', 'c'])) = false ∧
    load_queries_inline ['n', 'e', 'u', 'r', 'a', 'l', ' ', 'c', 'o', 'd', 'e', 'c'] =
      ['"' :: (pyStripWS ['n', 'e', 'u', 'r', 'a', 'l', ' ', 'c', 'o', 'd', 'e', 'c'] ++ ['"'])] ∧
    build_trees (load_queries_inline ['n', 'e', 'u', 'r', 'a', 'l', ' ', 'c', 'o', 'd', 'e', 'c']) =
      [Tree.term (pyStripWS ['n', 'e', 'u', 'r', 'a', 'l', ' ', 'c', 'o', 'd', 'e', 'c'])] :=
  ⟨by decide,
    (claim_C8_amended ['n', 'e', 'u', 'r', 'a', 'l', ' ', 'c', 'o', 'd', 'e', 'c']
      (by decide) (by decide) (by decide) (by decide) (by decide)).1,
    (claim_C8_amended ['n', 'e', 'u', 'r', 'a', 'l', ' ', 'c', 'o', 'd', 'e', 'c']
      (by decide) (by decide) (by decide) (by decide) (by decide)).2.1⟩

/-! ## Claim C9: the operator/word boundary rule of the tokenizer -/

/-- The position-instrumented tokenizer produces exactly the tokens of
`tokenizeF`. -/
theorem tokenizePosF_tokens : ∀ (f i : Nat) (l : List Char),
    (tokenizePosF f i l).map (List.map Prod.snd) = tokenizeF f l := by
  intro f
  induction f with
  | zero => intro i l; rfl
  | succ f ih =>
    intro i l
    cases l with
    | nil => rfl
    | cons c cs =>
      simp only [tokenizePosF, tokenizeF]
      by_cases hws : c.isWhitespace = true
      · rw [if_pos hws, if_pos hws]
        exact ih (i + 1) cs
      · rw [if_neg hws, if_neg hws]
        by_cases hp : (c == '(' || c == ')') = true
        · rw [if_pos hp, if_pos hp, ← ih (i + 1) cs]
          cases tokenizePosF f (i + 1) cs <;> rfl
        · rw [if_neg hp, if_neg hp]
          by_cases ha : andCond (c :: cs) = true
          · rw [if_pos ha, if_pos ha, ← ih (i + 3) ((c :: cs).drop 3)]
            cases tokenizePosF f (i + 3) ((c :: cs).drop 3) <;> rfl
          · rw [if_neg ha, if_neg ha]
            by_cases ho : orCond (c :: cs) = true
            · rw [if_pos ho, if_pos ho, ← ih (i + 2) ((c :: cs).drop 2)]
              cases tokenizePosF f (i + 2) ((c :: cs).drop 2) <;> rfl
            · rw [if_neg ho, if_neg ho]
              by_cases hq : (c == '"') = true
              · rw [if_pos hq, if_pos hq]
                cases hf : cs.findIdx? (fun x => x == '"') with
                | none => rfl
                | some j =>
                  dsimp only
                  rw [← ih (i + j + 2) (cs.drop (j + 1))]
                  cases tokenizePosF f (i + j + 2) (cs.drop (j + 1)) <;> rfl
              · rw [if_neg hq, if_neg hq,
                  ← ih (i + ((c :: cs).takeWhile isWordChar).length)
                    ((c :: cs).dropWhile isWordChar)]
                cases tokenizePosF f (i + ((c :: cs).takeWhile isWordChar).length)
                  ((c :: cs).dropWhile isWordChar) <;> rfl

theorem whitespace_notAlpha (c : Char) (h : c.isWhitespace = true) :
    c.isAlpha = false := by
  simp only [Char.isWhitespace, Bool.or_eq_true, decide_eq_true_eq] at h
  rcases h with ((rfl | rfl) | rfl) | rfl <;> decide

theorem notWordChar_notAlpha (c : Char) (h : isWordChar c = false) :
    c.isAlpha = false := by
  simp only [isWordChar, Bool.and_eq_false_iff, Bool.not_eq_false'] at h
  rcases h with (hw | hl) | hr
  · exact whitespace_notAlpha c hw
  · simp only [beq_iff_eq] at hl; subst hl; decide
  · simp only [beq_iff_eq] at hr; subst hr; decide

theorem dropWhile_head_not (p : Char → Bool) (l : List Char) (r : Char)
    (rs : List Char) (h : l.dropWhile p = r :: rs) : p r = false := by
  induction l with
  | nil => simp at h
  | cons x xs ih =>
    rw [List.dropWhile_cons] at h
    by_cases hx : p x = true
    · rw [if_pos hx] at h
      exact ih h
    · rw [if_neg hx] at h
      injection h with h1 _
      subst h1
      simpa using hx

/-- If the bare-word scan at the current position reads exactly `AND`,
then the tokenizer's `AND` test holds there. -/
theorem takeWhile_AND_andCond (l : List Char)
    (h : l.takeWhile isWordChar = ['A', 'N', 'D']) : andCond l = true := by
  have hsplit : l = ['A', 'N', 'D'] ++ l.dropWhile isWordChar := by
    conv_lhs => rw [← List.takeWhile_append_dropWhile isWordChar l]
    rw [h]
  rw [hsplit]
  cases hrest : l.dropWhile isWordChar with
  | nil => decide
  | cons r rs =>
    have hr : isWordChar r = false := dropWhile_head_not isWordChar l r rs hrest
    have hra := notWordChar_notAlpha r hr
    simp [andCond, Char.toUpper, hra]

/-- Same statement for `OR`. -/
theorem takeWhile_OR_orCond (l : List Char)
    (h : l.takeWhile isWordChar = ['O', 'R']) : orCond l = true := by
  have hsplit : l = ['O', 'R'] ++ l.dropWhile isWordChar := by
    conv_lhs => rw [← List.takeWhile_append_dropWhile isWordChar l]
    rw [h]
  rw [hsplit]
  cases hrest : l.dropWhile isWordChar with
  | nil => decide
  | cons r rs =>
    have hr : isWordChar r = false := dropWhile_head_not isWordChar l r rs hrest
    have hra := notWordChar_notAlpha r hr
    simp [orCond, Char.toUpper, hra]

/-- Soundness of the operator tokens: whenever the tokenizer emits `AND`
(resp. `OR`) at position `p`, the corresponding test holds on the suffix
starting at `p`. -/
theorem tokenizePosF_ops : ∀ (f i : Nat) (l : List Char)
    (res : List (Nat × List Char)), tokenizePosF f i l = Except.ok res →
    ∀ p t, (p, t) ∈ res →
      i ≤ p ∧
      (t = ['A', 'N', 'D'] → andCond (l.drop (p - i)) = true) ∧
      (t = ['O', 'R'] → orCond (l.drop (p - i)) = true) := by
  intro f
  induction f with
  | zero => intro i l res h; simp [tokenizePosF] at h
  | succ f ih =>
    intro i l res hres p t hmem
    cases l with
    | nil =>
      simp only [tokenizePosF, Except.ok.injEq] at hres
      subst hres
      simp at hmem
    | cons c cs =>
      simp only [tokenizePosF] at hres
      by_cases hws : c.isWhitespace = true
      · rw [if_pos hws] at hres
        obtain ⟨hp, hA, hO⟩ := ih (i + 1) cs res hres p t hmem
        refine ⟨by omega, fun ht => ?_, fun ht => ?_⟩
        · have harith : p - i = (p - (i + 1)) + 1 := by omega
          rw [harith, List.drop_succ_cons]
          exact hA ht
        · have harith : p - i = (p - (i + 1)) + 1 := by omega
          rw [harith, List.drop_succ_cons]
          exact hO ht
      · rw [if_neg hws] at hres
        by_cases hpar : (c == '(' || c == ')') = true
        · rw [if_pos hpar] at hres
          cases hinner : tokenizePosF f (i + 1) cs with
          | error e => rw [hinner] at hres; simp [Except.map] at hres
          | ok res' =>
            rw [hinner] at hres
            simp only [Except.map, Except.ok.injEq] at hres
            subst hres
            rcases List.mem_cons.mp hmem with heq | hmem'
            · injection heq with h1 h2
              subst h1
              subst h2
              refine ⟨Nat.le_refl _, by intro ht; simp at ht, by intro ht; simp at ht⟩
            · obtain ⟨hp, hA, hO⟩ := ih (i + 1) cs res' hinner p t hmem'
              refine ⟨by omega, fun ht => ?_, fun ht => ?_⟩
              · have harith : p - i = (p - (i + 1)) + 1 := by omega
                rw [harith, List.drop_succ_cons]
                exact hA ht
              · have harith : p - i = (p - (i + 1)) + 1 := by omega
                rw [harith, List.drop_succ_cons]
                exact hO ht
        · rw [if_neg hpar] at hres
          by_cases ha : andCond (c :: cs) = true
          · rw [if_pos ha] at hres
            cases hinner : tokenizePosF f (i + 3) ((c :: cs).drop 3) with
            | error e => rw [hinner] at hres; simp [Except.map] at hres
            | ok res' =>
              rw [hinner] at hres
              simp only [Except.map, Except.ok.injEq] at hres
              subst hres
              rcases List.mem_cons.mp hmem with heq | hmem'
              · injection heq with h1 h2
                subst h1
                subst h2
                refine ⟨Nat.le_refl _, fun _ => ?_, fun ht => ?_⟩
                · simpa using ha
                · simp at ht
              · obtain ⟨hp, hA, hO⟩ := ih (i + 3) ((c :: cs).drop 3) res' hinner p t hmem'
                refine ⟨by omega, fun ht => ?_, fun ht => ?_⟩
                · have harith : p - i = 3 + (p - (i + 3)) := by omega
                  rw [harith, ← List.drop_drop]
                  exact hA ht
                · have harith : p - i = 3 + (p - (i + 3)) := by omega
                  rw [harith, ← List.drop_drop]
                  exact hO ht
          · rw [if_neg ha] at hres
            by_cases ho : orCond (c :: cs) = true
            · rw [if_pos ho] at hres
              cases hinner : tokenizePosF f (i + 2) ((c :: cs).drop 2) with
              | error e => rw [hinner] at hres; simp [Except.map] at hres
              | ok res' =>
                rw [hinner] at hres
                simp only [Except.map, Except.ok.injEq] at hres
                subst hres
                rcases List.mem_cons.mp hmem with heq | hmem'
                · injection heq with h1 h2
                  subst h1
                  subst h2
                  refine ⟨Nat.le_refl _, fun ht => ?_, fun _ => ?_⟩
                  · simp at ht
                  · simpa using ho
                · obtain ⟨hp, hA, hO⟩ := ih (i + 2) ((c :: cs).drop 2) res' hinner p t hmem'
                  refine ⟨by omega, fun ht => ?_, fun ht => ?_⟩
                  · have harith : p - i = 2 + (p - (i + 2)) := by omega
                    rw [harith, ← List.drop_drop]
                    exact hA ht
                  · have harith : p - i = 2 + (p - (i + 2)) := by omega
                    rw [harith, ← List.drop_drop]
                    exact hO ht
            · rw [if_neg ho] at hres
              by_cases hq : (c == '"') = true
              · rw [if_pos hq] at hres
                cases hf : cs.findIdx? (fun x => x == '"') with
                | none => rw [hf] at hres; simp at hres
                | some j =>
                  rw [hf] at hres
                  dsimp only at hres
                  cases hinner : tokenizePosF f (i + j + 2) (cs.drop (j + 1)) with
                  | error e => rw [hinner] at hres; simp [Except.map] at hres
                  | ok res' =>
                    rw [hinner] at hres
                    simp only [Except.map, Except.ok.injEq] at hres
                    subst hres
                    rcases List.mem_cons.mp hmem with heq | hmem'
                    · injection heq with h1 h2
                      subst h1
                      subst h2
                      refine ⟨Nat.le_refl _, fun ht => ?_, fun ht => ?_⟩
                      · simp at ht
                      · simp at ht
                    · obtain ⟨hp, hA, hO⟩ :=
                        ih (i + j + 2) (cs.drop (j + 1)) res' hinner p t hmem'
                      refine ⟨by omega, fun ht => ?_, fun ht => ?_⟩
                      · have harith : p - i = (j + 2) + (p - (i + j + 2)) := by omega
                        rw [harith, ← List.drop_drop,
                          show List.drop (j + 2) (c :: cs) = cs.drop (j + 1) from by
                            rw [show j + 2 = (j + 1) + 1 from rfl, List.drop_succ_cons]]
                        exact hA ht
                      · have harith : p - i = (j + 2) + (p - (i + j + 2)) := by omega
                        rw [harith, ← List.drop_drop,
                          show List.drop (j + 2) (c :: cs) = cs.drop (j + 1) from by
                            rw [show j + 2 = (j + 1) + 1 from rfl, List.drop_succ_cons]]
                        exact hO ht
              · rw [if_neg hq] at hres
                cases hinner : tokenizePosF f (i + ((c :: cs).takeWhile isWordChar).length)
                    ((c :: cs).dropWhile isWordChar) with
                | error e => rw [hinner] at hres; simp [Except.map] at hres
                | ok res' =>
                  rw [hinner] at hres
                  simp only [Except.map, Except.ok.injEq] at hres
                  subst hres
                  rcases List.mem_cons.mp hmem with heq | hmem'
                  · injection heq with h1 h2
                    subst h1
                    refine ⟨Nat.le_refl _, fun ht => ?_, fun ht => ?_⟩
                    · rw [h2] at ht
                      exact absurd (takeWhile_AND_andCond _ ht) (by simp [ha])
                    · rw [h2] at ht
                      exact absurd (takeWhile_OR_orCond _ ht) (by simp [ho])
                  · have hlenw : ((c :: cs).takeWhile isWordChar).length +
                        ((c :: cs).dropWhile isWordChar).length = cs.length + 1 := by
                      rw [← List.length_append, List.takeWhile_append_dropWhile]
                      simp
                    obtain ⟨hp, hA, hO⟩ :=
                      ih (i + ((c :: cs).takeWhile isWordChar).length)
                        ((c :: cs).dropWhile isWordChar) res' hinner p t hmem'
                    have hdroptw : ∀ n, ((c :: cs).dropWhile isWordChar).drop n =
                        (c :: cs).drop (((c :: cs).takeWhile isWordChar).length + n) := by
                      intro n
                      have h1 : List.drop (((c :: cs).takeWhile isWordChar).length + n)
                          ((c :: cs).takeWhile isWordChar ++ (c :: cs).dropWhile isWordChar) =
                          List.drop n ((c :: cs).dropWhile isWordChar) := by
                        rw [← List.drop_drop, List.drop_left]
                      rw [List.takeWhile_append_dropWhile] at h1
                      exact h1.symm
                    refine ⟨by omega, fun ht => ?_, fun ht => ?_⟩
                    · have harith : p - i = ((c :: cs).takeWhile isWordChar).length +
                          (p - (i + ((c :: cs).takeWhile isWordChar).length)) := by omega
                      rw [harith, ← hdroptw]
                      exact hA ht
                    · have harith : p - i = ((c :: cs).takeWhile isWordChar).length +
                          (p - (i + ((c :: cs).takeWhile isWordChar).length)) := by omega
                      rw [harith, ← hdroptw]
                      exact hO ht

/-- Claim C9, counterexample. The claimed "if and only if" fails in the
"if" direction: in `xAND-` the letters `AND` appear at position 1 and are
followed by the non-letter `-`, yet the tokenizer, scanning a bare word
from position 0, emits the single token `xAND-` and no `AND` token. -/
theorem claim_C9_cx :
    tokenizePos ['x', 'A', 'N', 'D', '-'] = Except.ok [(0, ['x', 'A', 'N', 'D', '-'])] ∧
    andCond (['x', 'A', 'N', 'D', '-'].drop 1) = true ∧
    (1, ['A', 'N', 'D']) ∉ [((0 : Nat), ['x', 'A', 'N', 'D', '-'])] :=
  ⟨rfl, rfl, by decide⟩

/-- Claim C9, amended: `tokenize` emits the operator token `AND`
(resp. `OR`) at a position *only if* the letters `A`-`N`-`D`
(resp. `O`-`R`) appear there case-insensitively and are not immediately
followed by another letter; and tokenizing `ANDROID` yields the single
bare-word token `ANDROID`. -/
theorem claim_C9_amended :
    (∀ (expr : List Char) (res : List (Nat × List Char)) (p : Nat) (t : List Char),
      tokenizePos expr = Except.ok res → (p, t) ∈ res →
        (t = ['A', 'N', 'D'] → andCond (expr.drop p) = true) ∧
        (t = ['O', 'R'] → orCond (expr.drop p) = true)) ∧
    tokenize ['A', 'N', 'D', 'R', 'O', 'I', 'D'] =
      Except.ok [['A', 'N', 'D', 'R', 'O', 'I', 'D']] := by
  constructor
  · intro expr res p t hres hmem
    obtain ⟨_, hA, hO⟩ := tokenizePosF_ops (expr.length + 1) 0 expr res hres p t hmem
    refine ⟨fun ht => ?_, fun ht => ?_⟩
    · have h := hA ht
      simpa using h
    · have h := hO ht
      simpa using h
  · rfl

theorem claim_C9_witness :
    andCond (['A', 'N', 'D', ' ', 'x'].drop 0) = true ∧
    tokenize ['A', 'N', 'D', 'R', 'O', 'I', 'D'] =
      Except.ok [['A', 'N', 'D', 'R', 'O', 'I', 'D']] :=
  ⟨(claim_C9_amended.1 ['A', 'N', 'D', ' ', 'x'] [(0, ['A', 'N', 'D']), (4, ['x'])]
      0 ['A', 'N', 'D'] rfl (by decide)).1 rfl,
    claim_C9_amended.2⟩

end SearchPdf
